import Mathlib

/-!
Verification development for the BTC 15-minute backtest script
(src/backtest_btc_15m.py).  The script's core logic — trigger detection,
market resolution extraction, settlement evaluation and the per-market
orchestration loop — is embedded as executable Lean definitions; prices
and probabilities are modelled as rationals, timestamps as integers.
-/

set_option allowUnsafeReducibility true in
attribute [semireducible] Rat.add Rat.sub Rat.mul Rat.neg Rat.div Rat.inv

/-- Configuration constant THRESHOLD = 0.97 (line 7 of the source). -/
def THRESHOLD : ℚ := 97/100

/-- Configuration constant FEE = 0.02 (line 8 of the source). -/
def FEE : ℚ := 2/100

/-- A price-history point as returned by the prices-history endpoint:
a dict with keys "t" (Unix timestamp) and "p" (probability). -/
structure Tick where
  t : Int
  p : ℚ
deriving DecidableEq

/-- The trigger record built at lines 133-138 of the source. -/
structure Trigger where
  side : String
  side_idx : Nat
  price : ℚ
  time : Int
deriving DecidableEq

/-- One iteration of the outer loop at lines 129-139: scan one side's
history for its first tick with probability >= T (the inner loop breaks
at the first hit), and replace the current trigger exactly when there is
no trigger yet or the hit is strictly earlier.  outcomes[side_idx] is
written with getD: in run(), side_idx < 2 = outcomes.length always. -/
def stepSide (outcomes : List String) (T : ℚ) (trig : Option Trigger)
    (side_idx : Nat) (hist : List Tick) : Option Trigger :=
  match hist.find? (fun tk => T ≤ tk.p) with
  | none => trig
  | some tk =>
    match trig with
    | none => some ⟨outcomes.getD side_idx "", side_idx, tk.p, tk.t⟩
    | some tr =>
      if tk.t < tr.time then some ⟨outcomes.getD side_idx "", side_idx, tk.p, tk.t⟩
      else some tr

/-- The enumerate loop of lines 128-139, carried out left to right with
the running side index. -/
def findTriggerAux (outcomes : List String) (T : ℚ) (side_idx : Nat)
    (hists : List (List Tick)) (trig : Option Trigger) : Option Trigger :=
  match hists with
  | [] => trig
  | h :: rest => findTriggerAux outcomes T (side_idx + 1) rest (stepSide outcomes T trig side_idx h)

/-- The trigger detector of lines 128-139: earliest first-qualifying tick
across the per-side histories. -/
def findTrigger (outcomes : List String) (hists : List (List Tick)) (T : ℚ) : Option Trigger :=
  findTriggerAux outcomes T 0 hists none

/-- max(range(len(ps)), key=lambda i: float(ps[i])) at line 73: Python's
max keeps the first index and replaces only on a strictly larger key,
so it returns the first index attaining the maximum. -/
def argmaxIdx (ps : List ℚ) : Nat :=
  (List.range ps.length).foldl (fun best i => if ps.getD best 0 < ps.getD i 0 then i else best) 0

/-- resolved_outcome (lines 68-78).  An argument is none when the JSON
field fails to parse (the bare except returns None); os.get? models
outs[i], whose IndexError is swallowed by the same except. -/
def resolved_outcome (outs : Option (List String)) (prices : Option (List ℚ)) : Option String :=
  match outs, prices with
  | some os, some ps =>
    if ps ≠ [] ∧ os ≠ [] then
      if 9/10 < ps.getD (argmaxIdx ps) 0 then os.get? (argmaxIdx ps) else none
    else none
  | _, _ => none

/-- trigger["side"] == winner at line 149; in Python a str never equals None. -/
def wonFlag (side : String) (winner : Option String) : Bool :=
  match winner with
  | some w => side == w
  | none => false

/-- The PnL formula of line 150, with the fee as an explicit parameter
(the source reads the global FEE). -/
def pnlOf (w : Bool) (price fee : ℚ) : ℚ :=
  if w then 1 - price - fee else -(price + fee)

/-- Python round-half-to-even to an integer, on the exact rational. -/
def halfEven (q : ℚ) : ℤ :=
  if q - ⌊q⌋ < 1/2 then ⌊q⌋
  else if 1/2 < q - ⌊q⌋ then ⌊q⌋ + 1
  else if 2 ∣ ⌊q⌋ then ⌊q⌋ else ⌊q⌋ + 1

/-- Python round(x, 4) on the exact rational. -/
def round4 (q : ℚ) : ℚ := (halfEven (q * 10000) : ℚ) / 10000

/-- The trade dict appended at lines 157-165. -/
structure TradeRec where
  slug : String
  side : String
  price : ℚ
  winner : Option String
  won : Bool
  pnl : ℚ
  tte_secs : Int
deriving DecidableEq

/-- Building the trade record of lines 149-165 from a trigger, the
resolved winner and the window end. -/
def mkTradeRec (slug : String) (trig : Trigger) (winner : Option String) (end_ts : Int) : TradeRec :=
  let w := wonFlag trig.side winner
  { slug := slug
    side := trig.side
    price := round4 trig.price
    winner := winner
    won := w
    pnl := round4 (pnlOf w trig.price FEE)
    tte_secs := end_ts - trig.time }

/-- A closed market as consumed by run()'s loop.  clobTokenIds/outcomes
are none when json.loads raises (lines 96-102); endDate holds the result
of iso_to_ts(m["endDate"]) (line 113) and is none when
datetime.fromisoformat rejects the string, i.e. when iso_to_ts raises;
outcomePrices is none when its JSON fails to parse. -/
structure Market where
  slug : String
  clobTokenIds : Option (List String)
  outcomes : Option (List String)
  endDate : Option Int
  outcomePrices : Option (List ℚ)
deriving DecidableEq

/-- What run()'s loop body does with one market. -/
inductive StepResult where
  | skip
  | noTrigger
  | trade (t : TradeRec)
deriving DecidableEq

/-- The body of run()'s per-market loop (lines 92-165).  fetch models the
prices(token, start, end) collaborator.  An Except.error models an
exception escaping the loop body uncaught — there is no try around
iso_to_ts at line 113, so a bad endDate aborts run(). -/
def processMarket (fetch : String → Int → Int → List Tick) (m : Market) :
    Except String StepResult :=
  match m.clobTokenIds, m.outcomes with
  | some token_ids, some outcomes =>
    if token_ids.length = 2 ∧ outcomes.length = 2 then
      match m.endDate with
      | none => .error m.slug
      | some end_ts =>
        let start_ts := end_ts - 900
        let hists := token_ids.map (fun tid => fetch tid start_ts end_ts)
        match findTrigger outcomes hists THRESHOLD with
        | none => .ok .noTrigger
        | some trig =>
          .ok (.trade (mkTradeRec m.slug trig
            (resolved_outcome m.outcomes m.outcomePrices) end_ts))
    else .ok .skip
  | _, _ => .ok .skip

/-- The mutable state of run(): the trades list and the skipped counter. -/
structure RunState where
  trades : List TradeRec
  skipped : Nat
deriving DecidableEq

/-- run()'s loop over the closed markets, threading the state; an
uncaught exception stops the whole loop. -/
def runLoopFrom (fetch : String → Int → Int → List Tick) (st : RunState)
    (ms : List Market) : Except String RunState :=
  match ms with
  | [] => .ok st
  | m :: rest =>
    match processMarket fetch m with
    | .error e => .error e
    | .ok .skip => runLoopFrom fetch { st with skipped := st.skipped + 1 } rest
    | .ok .noTrigger => runLoopFrom fetch st rest
    | .ok (.trade t) => runLoopFrom fetch { st with trades := st.trades ++ [t] } rest

/-- The whole of run()'s market loop, from the empty state. -/
def runBacktest (fetch : String → Int → Int → List Tick) (ms : List Market) :
    Except String RunState :=
  runLoopFrom fetch ⟨[], 0⟩ ms

/-- wins = [t for t in trades if t["pnl"] > 0] (line 169). -/
def winsOf (trades : List TradeRec) : List TradeRec :=
  trades.filter (fun t => decide (0 < t.pnl))

/-- len(wins)/max(1,n)*100 (line 174). -/
def winRatePct (trades : List TradeRec) : ℚ :=
  ((winsOf trades).length : ℚ) / (max 1 trades.length : ℕ) * 100

/-- sum(t['pnl'] for t in trades)/max(1,n) (line 175). -/
def avgPnl (trades : List TradeRec) : ℚ :=
  (trades.map (fun t => t.pnl)).sum / (max 1 trades.length : ℕ)

/-- A price-history collaborator that always returns no ticks. -/
def emptyFetch : String → Int → Int → List Tick := fun _ _ _ => []

lemma halfEven_nonpos (q : ℚ) (h : q ≤ 0) : halfEven q ≤ 0 := by
  have hf : ⌊q⌋ ≤ 0 := Int.floor_nonpos h
  have hfq : (⌊q⌋ : ℚ) ≤ q := Int.floor_le q
  unfold halfEven
  split_ifs with h1 h2 h3
  · exact hf
  · have hlt : (⌊q⌋ : ℚ) < 0 := by
      have := not_lt.mp h1
      linarith
    have : ⌊q⌋ < 0 := by exact_mod_cast hlt
    omega
  · exact hf
  · have hlt : (⌊q⌋ : ℚ) < 0 := by
      have := not_lt.mp h1
      linarith
    have : ⌊q⌋ < 0 := by exact_mod_cast hlt
    omega

lemma round4_nonpos (q : ℚ) (h : q ≤ 0) : round4 q ≤ 0 := by
  have h1 : q * 10000 ≤ 0 := by linarith
  have h2 : ((halfEven (q * 10000) : ℤ) : ℚ) ≤ 0 := by
    exact_mod_cast halfEven_nonpos _ h1
  unfold round4
  exact div_nonpos_iff.mpr (Or.inr ⟨h2, by norm_num⟩)

/-- C7: on an empty trade list the summary divides by max(1, 0) = 1, so
the win rate prints as 0% and the average PnL as 0 — no division by
zero. -/
theorem empty_trades_summary : winRatePct [] = 0 ∧ avgPnl [] = 0 := by
  constructor <;> decide

/-- C3: a trade is won exactly when the resolved winner equals the
triggered side (an undefined resolution, modelled as none, never wins);
the PnL is 1 - p - FEE on a win and -(p + FEE) otherwise. -/
theorem settlement_formula (side : String) (winner : Option String) (p : ℚ) :
    (wonFlag side winner = true ↔ winner = some side)
    ∧ pnlOf (wonFlag side winner) p FEE =
        (if winner = some side then 1 - p - FEE else -(p + FEE))
    ∧ wonFlag side none = false
    ∧ pnlOf (wonFlag side none) p FEE = -(p + FEE) := by
  cases winner with
  | none => simp [wonFlag, pnlOf]
  | some w =>
    by_cases h : side = w
    · subst h
      simp [wonFlag, pnlOf]
    · have hb : (side == w) = false := beq_eq_false_iff_ne.mpr h
      have hs : ¬(some w = some side) := by
        intro hw
        exact h (Option.some_inj.mp hw).symm
      simp [wonFlag, pnlOf, hb, hs]

/-- C8: for any fee F ≥ 0 and prices 0 ≤ p < q ≤ 1, the settlement PnL
at q is strictly below the PnL at p, in the win case and in the loss
case alike. -/
theorem pnl_strictly_decreasing (F p q : ℚ) (hF : 0 ≤ F) (h0 : 0 ≤ p)
    (h1 : q ≤ 1) (hpq : p < q) :
    pnlOf true q F < pnlOf true p F ∧ pnlOf false q F < pnlOf false p F := by
  constructor
  · show (1 - q - F : ℚ) < 1 - p - F
    linarith
  · show (-(q + F) : ℚ) < -(p + F)
    linarith

theorem pnl_strictly_decreasing_witness :
    pnlOf true 1 (2/100) < pnlOf true (1/2) (2/100)
    ∧ pnlOf false 1 (2/100) < pnlOf false (1/2) (2/100) :=
  pnl_strictly_decreasing (2/100) (1/2) 1 (by decide) (by decide) (by decide) (by decide)

/-- C10: when the entry price is at least 1 - FEE and the triggered side
equals the winner, the stored record has won = true but its rounded PnL
1 - p - FEE is ≤ 0, so the summary's wins filter (pnl > 0) excludes it:
the won flag and the summary win count disagree. -/
theorem won_flag_vs_win_count (slug : String) (trig : Trigger) (end_ts : Int)
    (h : 1 - FEE ≤ trig.price) :
    (mkTradeRec slug trig (some trig.side) end_ts).won = true
    ∧ (mkTradeRec slug trig (some trig.side) end_ts).pnl ≤ 0
    ∧ winsOf [mkTradeRec slug trig (some trig.side) end_ts] = []
    ∧ (winsOf [mkTradeRec slug trig (some trig.side) end_ts]).length = 0 := by
  have hw : wonFlag trig.side (some trig.side) = true := by simp [wonFlag]
  have hle : pnlOf (wonFlag trig.side (some trig.side)) trig.price FEE ≤ 0 := by
    rw [hw]
    show (1 - trig.price - FEE : ℚ) ≤ 0
    linarith
  have hp : (mkTradeRec slug trig (some trig.side) end_ts).pnl ≤ 0 :=
    round4_nonpos _ hle
  have hfilter : winsOf [mkTradeRec slug trig (some trig.side) end_ts] = [] := by
    simp only [winsOf, List.filter_cons, List.filter_nil]
    rw [decide_eq_false (not_lt.mpr hp)]
    simp
  exact ⟨hw, hp, hfilter, by rw [hfilter]; rfl⟩

theorem won_flag_vs_win_count_witness :
    (mkTradeRec "m" ⟨"Up", 0, 99/100, 50⟩ (some "Up") 100).won = true
    ∧ (mkTradeRec "m" ⟨"Up", 0, 99/100, 50⟩ (some "Up") 100).pnl ≤ 0
    ∧ winsOf [mkTradeRec "m" ⟨"Up", 0, 99/100, 50⟩ (some "Up") 100] = []
    ∧ (winsOf [mkTradeRec "m" ⟨"Up", 0, 99/100, 50⟩ (some "Up") 100]).length = 0 :=
  won_flag_vs_win_count "m" ⟨"Up", 0, 99/100, 50⟩ 100 (by decide)

/-- C1: when each side has a first qualifying tick and side A's is
strictly earlier, the detector returns side A's label, price and time,
whether A is listed as side 0 or as side 1. -/
theorem earliest_side_wins (oA oB : String) (hA hB : List Tick) (T : ℚ)
    (a b : Tick)
    (ha : hA.find? (fun tk => T ≤ tk.p) = some a)
    (hb : hB.find? (fun tk => T ≤ tk.p) = some b)
    (hab : a.t < b.t) :
    findTrigger [oA, oB] [hA, hB] T = some ⟨oA, 0, a.p, a.t⟩
    ∧ findTrigger [oB, oA] [hB, hA] T = some ⟨oA, 1, a.p, a.t⟩ := by
  have hnb : ¬ b.t < a.t := not_lt.mpr (le_of_lt hab)
  constructor
  · simp [findTrigger, findTriggerAux, stepSide, ha, hb, hnb]
  · simp [findTrigger, findTriggerAux, stepSide, ha, hb, hab]

theorem earliest_side_wins_witness :
    findTrigger ["Up", "Down"] [[⟨5, 3/4⟩], [⟨7, 9/10⟩]] (1/2) = some ⟨"Up", 0, 3/4, 5⟩
    ∧ findTrigger ["Down", "Up"] [[⟨7, 9/10⟩], [⟨5, 3/4⟩]] (1/2) = some ⟨"Up", 1, 3/4, 5⟩ :=
  earliest_side_wins "Up" "Down" [⟨5, 3/4⟩] [⟨7, 9/10⟩] (1/2) ⟨5, 3/4⟩ ⟨7, 9/10⟩
    (by decide) (by decide) (by decide)

/-- C9: when both sides' first qualifying ticks carry the same
timestamp, the trigger stays with side 0 — a later side replaces the
current trigger only on a strictly smaller timestamp. -/
theorem tie_keeps_side_zero (oA oB : String) (hA hB : List Tick) (T : ℚ)
    (a b : Tick)
    (ha : hA.find? (fun tk => T ≤ tk.p) = some a)
    (hb : hB.find? (fun tk => T ≤ tk.p) = some b)
    (heq : a.t = b.t) :
    findTrigger [oA, oB] [hA, hB] T = some ⟨oA, 0, a.p, a.t⟩ := by
  have hnb : ¬ b.t < a.t := by rw [heq]; exact lt_irrefl b.t
  simp [findTrigger, findTriggerAux, stepSide, ha, hb, hnb]

theorem tie_keeps_side_zero_witness :
    findTrigger ["Up", "Down"] [[⟨5, 3/4⟩], [⟨5, 9/10⟩]] (1/2) = some ⟨"Up", 0, 3/4, 5⟩ :=
  tie_keeps_side_zero "Up" "Down" [⟨5, 3/4⟩] [⟨5, 9/10⟩] (1/2) ⟨5, 3/4⟩ ⟨5, 9/10⟩
    (by decide) (by decide) (by decide)

lemma stepSide_eq_none_iff (outs : List String) (T : ℚ) (trig : Option Trigger)
    (si : Nat) (h : List Tick) :
    stepSide outs T trig si h = none ↔
      trig = none ∧ h.find? (fun tk => T ≤ tk.p) = none := by
  unfold stepSide
  cases hf : h.find? (fun tk => T ≤ tk.p) with
  | none => simp
  | some tk =>
    cases trig with
    | none => simp
    | some tr =>
      by_cases hlt : tk.t < tr.time <;> simp [hlt]

lemma findTriggerAux_eq_none_iff (outs : List String) (T : ℚ) :
    ∀ (hists : List (List Tick)) (si : Nat) (trig : Option Trigger),
    findTriggerAux outs T si hists trig = none ↔
      trig = none ∧ ∀ h ∈ hists, h.find? (fun tk => T ≤ tk.p) = none := by
  intro hists
  induction hists with
  | nil => intro si trig; simp [findTriggerAux]
  | cons h rest ih =>
    intro si trig
    rw [findTriggerAux, ih, stepSide_eq_none_iff]
    simp only [List.forall_mem_cons]
    tauto

/-- C2: the detector returns no trigger exactly when every tick on every
side has probability strictly below the threshold; in particular a tick
equal to the threshold qualifies, and an empty side contributes no
qualifying tick without being an error. -/
theorem no_trigger_iff_all_below (outs : List String) (hists : List (List Tick)) (T : ℚ) :
    findTrigger outs hists T = none ↔ ∀ h ∈ hists, ∀ tk ∈ h, tk.p < T := by
  rw [findTrigger, findTriggerAux_eq_none_iff]
  simp [List.find?_eq_none, not_le]

lemma foldl_best_ub (f : Nat → ℚ) (l : List Nat) :
    ∀ b : Nat,
    f b ≤ f (l.foldl (fun best i => if f best < f i then i else best) b)
    ∧ ∀ i ∈ l, f i ≤ f (l.foldl (fun best i => if f best < f i then i else best) b) := by
  induction l with
  | nil => intro b; simp
  | cons a t ih =>
    intro b
    simp only [List.foldl_cons]
    have hstep : f b ≤ f (if f b < f a then a else b) := by
      split
    
      · linarith
      · exact le_refl _
    have hstepa : f a ≤ f (if f b < f a then a else b) := by
      split
    
      · exact le_refl _
      · linarith [not_lt.mp (by assumption : ¬ f b < f a)]
    refine ⟨le_trans hstep (ih _).1, ?_⟩
    intro i hi
    rcases List.mem_cons.mp hi with rfl | hmem
    · exact le_trans hstepa (ih _).1
    · exact (ih _).2 i hmem

lemma argmaxIdx_is_max (ps : List ℚ) : ∀ q ∈ ps, q ≤ ps.getD (argmaxIdx ps) 0 := by
  intro q hq
  obtain ⟨n, hn, hval⟩ := List.mem_iff_getElem.mp hq
  have hmem : n ∈ List.range ps.length := List.mem_range.mpr hn
  have hub := (foldl_best_ub (fun i => ps.getD i 0) (List.range ps.length) 0).2 n hmem
  have hg : ps.getD n 0 = q := by
    rw [List.getD_eq_getElem?_getD, List.getElem?_eq_getElem hn, hval]
    rfl
  rw [← hg]
  exact hub

/-- C4 (amended): for successfully parsed inputs the extractor returns
the label at the first index attaining the maximum settlement price
exactly when both lists are nonempty, that maximum exceeds 0.9 and the
index exists in the label list; a parse failure on either side yields no
winner. -/
theorem resolved_outcome_spec (os : List String) (ps : List ℚ) (lbl : String) :
    (resolved_outcome (some os) (some ps) = some lbl ↔
      ps ≠ [] ∧ os ≠ [] ∧ (∀ q ∈ ps, q ≤ ps.getD (argmaxIdx ps) 0)
        ∧ 9/10 < ps.getD (argmaxIdx ps) 0 ∧ os.get? (argmaxIdx ps) = some lbl)
    ∧ resolved_outcome none (some ps) = none
    ∧ resolved_outcome (some os) none = none
    ∧ resolved_outcome none none = none := by
  refine ⟨?_, rfl, rfl, rfl⟩
  show (if ps ≠ [] ∧ os ≠ [] then
      if 9/10 < ps.getD (argmaxIdx ps) 0 then os.get? (argmaxIdx ps) else none
    else none) = some lbl ↔ _
  by_cases h1 : ps ≠ [] ∧ os ≠ []
  · rw [if_pos h1]
    by_cases h2 : (9 : ℚ)/10 < ps.getD (argmaxIdx ps) 0
    · rw [if_pos h2]
      constructor
      · intro hl
        exact ⟨h1.1, h1.2, argmaxIdx_is_max ps, h2, hl⟩
      · intro hr
        exact hr.2.2.2.2
    · rw [if_neg h2]
      constructor
      · intro hl
        exact absurd hl (by simp)
      · intro hr
        exact absurd hr.2.2.2.1 h2
  · rw [if_neg h1]
    constructor
    · intro hl
      exact absurd hl (by simp)
    · intro hr
      exact absurd ⟨hr.1, hr.2.1⟩ h1

/-- The claim as frozen is refuted here: the maximum settlement price
0.95 exceeds 0.9 at index 1, and every price is bounded by it, yet the
extractor returns no winner because the outcome-label list has no index
1 (outs[i] raises IndexError, swallowed into None). -/
theorem resolved_outcome_counterexample :
    resolved_outcome (some ["Up"]) (some [1/2, 19/20]) = none
    ∧ argmaxIdx [1/2, 19/20] = 1
    ∧ (9/10 : ℚ) < List.getD [(1:ℚ)/2, 19/20] 1 0
    ∧ ∀ q ∈ [(1:ℚ)/2, 19/20], q ≤ List.getD [(1:ℚ)/2, 19/20] 1 0 := by
  refine ⟨by decide, by decide, by decide, ?_⟩
  intro q hq
  rcases List.mem_cons.mp hq with rfl | hq2
  · decide
  · rcases List.mem_cons.mp hq2 with rfl | hq3
    · decide
    · exact absurd hq3 (List.not_mem_nil q)

/-- A price-history collaborator returning one qualifying tick. -/
def oneTickFetch : String → Int → Int → List Tick := fun _ _ _ => [⟨0, 1⟩]

/-- C5: a closed market whose endDate string iso_to_ts cannot parse
(endDate = none) makes the loop body raise instead of skipping: the
whole run aborts with the error, the skipped counter is lost and the
following market is never processed.  This contradicts the claim that a
bad timestamp is counted as skipped and never fatal. -/
theorem bad_timestamp_aborts_run :
    runBacktest emptyFetch
      [⟨"btc-bad-ts", some ["tokA", "tokB"], some ["Up", "Down"], none, some [1, 0]⟩,
       ⟨"btc-ok", some ["tokC", "tokD"], some ["Up", "Down"], some 1000, some [1, 0]⟩]
      = Except.error "btc-bad-ts" := by
  rfl

/-- C6: a market whose parsed token or outcome list is not of length two
is skipped: its processing consults no price fetch (any two collaborators
give the same result), appends no trade, only bumps the skipped counter,
and the loop continues with the remaining markets. -/
theorem wrong_side_count_skips (f g : String → Int → Int → List Tick)
    (m : Market) (tids outs : List String) (st : RunState) (ms : List Market)
    (h1 : m.clobTokenIds = some tids) (h2 : m.outcomes = some outs)
    (h3 : ¬(tids.length = 2 ∧ outs.length = 2)) :
    processMarket f m = Except.ok StepResult.skip
    ∧ processMarket f m = processMarket g m
    ∧ runLoopFrom f st (m :: ms) = runLoopFrom f ⟨st.trades, st.skipped + 1⟩ ms := by
  have hp : ∀ k : String → Int → Int → List Tick,
      processMarket k m = Except.ok StepResult.skip := by
    intro k
    unfold processMarket
    rw [h1, h2]
    show (if tids.length = 2 ∧ outs.length = 2 then _ else Except.ok StepResult.skip)
      = Except.ok StepResult.skip
    rw [if_neg h3]
  refine ⟨hp f, (hp f).trans (hp g).symm, ?_⟩
  conv_lhs => rw [runLoopFrom]
  rw [hp f]

theorem wrong_side_count_skips_witness :
    processMarket emptyFetch
      ⟨"m3", some ["a", "b", "c"], some ["Up", "Down"], some 1000, some [1, 0]⟩
      = Except.ok StepResult.skip
    ∧ processMarket emptyFetch
        ⟨"m3", some ["a", "b", "c"], some ["Up", "Down"], some 1000, some [1, 0]⟩
      = processMarket oneTickFetch
        ⟨"m3", some ["a", "b", "c"], some ["Up", "Down"], some 1000, some [1, 0]⟩
    ∧ runLoopFrom emptyFetch ⟨[], 0⟩
        [⟨"m3", some ["a", "b", "c"], some ["Up", "Down"], some 1000, some [1, 0]⟩]
      = runLoopFrom emptyFetch ⟨[], 0 + 1⟩ [] :=
  wrong_side_count_skips emptyFetch oneTickFetch
    ⟨"m3", some ["a", "b", "c"], some ["Up", "Down"], some 1000, some [1, 0]⟩
    ["a", "b", "c"] ["Up", "Down"] ⟨[], 0⟩ [] rfl rfl (by decide)
